import Mathlib

/-!
Shallow embedding of the tweet-generator core:
* `TweetGenerator._split_story_into_tweets` (src/main.py, lines 96-167),
* the post-history store and scheduler decision logic
  (`_already_posted_in_time_slot`, `_record_post`, `get_post_history`,
  `_run_daily_generation` in src/scheduler.py).

Strings are modelled as `List Char`; Python's Unicode-aware `\s` / `\w` /
`[A-Z]` character classes are modelled over their ASCII content, which covers
every string the program manipulates here.  Wall-clock datetimes are modelled
as minutes since an epoch; `strftime` date equality becomes equality of day
indices and `.hour` becomes the minute-of-day divided by 60.
-/

namespace TweetGen

/-- Python `\s` on ASCII: space, tab, newline, carriage return, vertical tab,
form feed. -/
def isPySpace (c : Char) : Bool :=
  c = ' ' || c = '\t' || c = '\n' || c = '\r' || c = '\x0b' || c = '\x0c'

/-- Python `\w` on ASCII: letters, digits, underscore. -/
def isWordChar (c : Char) : Bool :=
  ('a' ≤ c && c ≤ 'z') || ('A' ≤ c && c ≤ 'Z') || ('0' ≤ c && c ≤ '9') || c = '_'

/-- The regex class `[A-Z]`. -/
def isUpperAZ (c : Char) : Bool :=
  'A' ≤ c && c ≤ 'Z'

/-- The regex class `[.!?]` used by the sentence-boundary lookbehind. -/
def isSentEnd (c : Char) : Bool :=
  c = '.' || c = '!' || c = '?'

/-- Remove trailing whitespace (helper for Python `str.strip`). -/
def dropTrailing : List Char → List Char
  | [] => []
  | c :: rest =>
    let r := dropTrailing rest
    if r = [] ∧ isPySpace c then [] else c :: r

/-- Python `str.strip()`: remove leading and trailing whitespace. -/
def stripChars (s : List Char) : List Char :=
  dropTrailing (s.dropWhile isPySpace)

/-- Helper for Python `str.split()`: `cur` is the word currently being read,
in reverse order. -/
def pyWordsAux : List Char → List Char → List (List Char)
  | [], cur => if cur = [] then [] else [cur.reverse]
  | c :: rest, cur =>
    if isPySpace c then
      if cur = [] then pyWordsAux rest [] else cur.reverse :: pyWordsAux rest []
    else
      pyWordsAux rest (c :: cur)

/-- Python `str.split()` with no separator: split on whitespace runs,
dropping empty pieces. -/
def pyWords (s : List Char) : List (List Char) :=
  pyWordsAux s []

/-- One step of matching `re.search(r'(\s+#\w+(?:\s+#\w+)*)\s*$', story)`
backwards from the end of the string: on the reversed remaining input, parse
one `\s+#\w+` token (reversed), returning the reversed token together with
the rest.  The word run and the whitespace run are maximal, exactly as the
greedy regex quantifiers force once anchored at the end. -/
def parseTagTokenRev (r : List Char) : Option (List Char × List Char) :=
  let w := r.takeWhile isWordChar
  let r1 := r.dropWhile isWordChar
  if w = [] then none
  else
    match r1 with
    | '#' :: r2 =>
      let sp := r2.takeWhile isPySpace
      let r3 := r2.dropWhile isPySpace
      if sp = [] then none else some (w ++ '#' :: sp, r3)
    | _ => none

/-- Collect as many reversed `\s+#\w+` tokens as possible (fuel-driven; each
successful parse consumes at least one character, so `fuel = r.length`
always suffices). -/
def collectTagsRev : Nat → List Char → List Char → List Char × List Char
  | 0, r, acc => (acc, r)
  | fuel + 1, r, acc =>
    match parseTagTokenRev r with
    | none => (acc, r)
    | some (tok, rest) => collectTagsRev fuel rest (acc ++ tok)

/-- Lines 101-106 of src/main.py: find a trailing hashtag run
`(\s+#\w+(?:\s+#\w+)*)\s*$`; if found, return the story text before the run
(stripped) together with the run (group 1, including its leading
whitespace); otherwise return the story unchanged and an empty run. -/
def extractTrailingHashtags (story : List Char) : List Char × List Char :=
  let r := story.reverse.dropWhile isPySpace
  let p := collectTagsRev r.length r []
  if p.1 = [] then (story, []) else (stripChars p.2.reverse, p.1.reverse)

/-- Lines 108-110 of src/main.py: `re.split(r'(?<=[.!?])\s+(?=[A-Z])', story)`.
Scanning left to right, a split point is a whitespace run whose preceding
character is `.`, `!` or `?` and whose following character is `A`-`Z`; the
run itself is consumed.  Fuel-driven (`fuel = rem.length` suffices since
every step consumes at least one character). -/
def splitSentencesAux : Nat → List Char → List Char → List (List Char) → List (List Char)
  | 0, rem, cur, acc => acc ++ [cur ++ rem]
  | fuel + 1, rem, cur, acc =>
    match rem with
    | [] => acc ++ [cur]
    | c :: rest =>
      let boundary :=
        (match cur.getLast? with
         | some p => isSentEnd p
         | none => false) &&
        isPySpace c &&
        (match (c :: rest).dropWhile isPySpace with
         | d :: _ => isUpperAZ d
         | [] => false)
      if boundary then
        splitSentencesAux fuel ((c :: rest).dropWhile isPySpace) [] (acc ++ [cur])
      else
        splitSentencesAux fuel rest (cur ++ [c]) acc

def splitSentences (s : List Char) : List (List Char) :=
  splitSentencesAux s.length s [] []

/-- `current_tweet + " " + sentence` when the buffer is nonempty, else the
sentence itself (lines 128-131 of src/main.py). -/
def joinSp (cur s : List Char) : List Char :=
  if cur = [] then s else cur ++ ' ' :: s

/-- Lines 144-151 of src/main.py: word-by-word packing of a single oversized
sentence.  State is `(tweets, current_tweet)`. -/
def packWordStep (actualSpace : Int) (st : List (List Char) × List Char)
    (w : List Char) : List (List Char) × List Char :=
  if ((joinSp st.2 w).length : Int) ≤ actualSpace then (st.1, joinSp st.2 w)
  else if st.2 = [] then (st.1, w)
  else (st.1 ++ [stripChars st.2], w)

/-- Lines 121-152 of src/main.py: process one sentence.  `hlen` is
`len(hashtags)`, `lastSent` is `sentences[-1]` (compared by value, exactly as
`sentence == sentences[-1]` does).  The 10-character reservation is the
`thread_number_space` for the eventual numbering suffix; all space arithmetic
is over `Int` because Python subtraction does not truncate at zero. -/
def packSentenceStep (limit hlen : Nat) (lastSent : List Char)
    (st : List (List Char) × List Char) (s : List Char) :
    List (List Char) × List Char :=
  if ((joinSp st.2 s).length : Int) ≤
      (limit : Int) - 10 - (if s = lastSent then (hlen : Int) else 0) then
    (st.1, joinSp st.2 s)
  else if ¬st.2 = [] then (st.1 ++ [stripChars st.2], s)
  else (pyWords s).foldl
    (packWordStep ((limit : Int) - 10 - (if s = lastSent then (hlen : Int) else 0)))
    (st.1, [])

/-- Lines 116-156 of src/main.py: greedy packing of the sentence list into
tweet fragments (`sentences[-1]` is passed to every step for the by-value
comparison on line 123), flushing the final buffer at the end. -/
def packSentences (limit hlen : Nat) (sentences : List (List Char)) :
    List (List Char) :=
  if (sentences.foldl (packSentenceStep limit hlen (sentences.getLastD [])) ([], [])).2 = [] then
    (sentences.foldl (packSentenceStep limit hlen (sentences.getLastD [])) ([], [])).1
  else
    (sentences.foldl (packSentenceStep limit hlen (sentences.getLastD [])) ([], [])).1 ++
      [stripChars (sentences.foldl (packSentenceStep limit hlen (sentences.getLastD [])) ([], [])).2]

/-- Decimal digits of a natural number (helper for the f-string
`f"{tweets[i]} ({i+1}/{len(tweets)})"`). -/
def natToCharsAux : Nat → Nat → List Char → List Char
  | 0, _, acc => acc
  | fuel + 1, n, acc =>
    let d := Char.ofNat (48 + n % 10)
    if n < 10 then d :: acc else natToCharsAux fuel (n / 10) (d :: acc)

def natToChars (n : Nat) : List Char :=
  natToCharsAux (n + 1) n []

/-- The rendered numbering suffix `" (i/n)"`. -/
def numSuffix (i n : Nat) : List Char :=
  ' ' :: '(' :: (natToChars i ++ '/' :: natToChars n ++ [')'])

/-- Lines 162-165 of src/main.py: append `" (i/n)"` to every fragment,
1-indexed from `i`. -/
def numberFrom (n : Nat) : Nat → List (List Char) → List (List Char)
  | _, [] => []
  | i, f :: rest => (f ++ numSuffix (i + 1) n) :: numberFrom n (i + 1) rest

/-- Lines 158-160 of src/main.py: `tweets[-1] += hashtags`. -/
def appendToLast (x : List Char) : List (List Char) → List (List Char)
  | [] => []
  | [f] => [f ++ x]
  | f :: g :: rest => f :: appendToLast x (g :: rest)

/-- The trailing hashtag run extracted from a story (empty if none). -/
def tagsOf (story : List Char) : List Char :=
  (extractTrailingHashtags story).2

/-- The story text with the trailing hashtag run removed and stripped
(the story unchanged when there is no run). -/
def bodyOf (story : List Char) : List Char :=
  (extractTrailingHashtags story).1

/-- Lines 108-113 of src/main.py: sentence list after the clean-up
`[s.strip() for s in sentences if s.strip()]`. -/
def sentencesOf (story : List Char) : List (List Char) :=
  ((splitSentences (bodyOf story)).map stripChars).filter (fun s => ¬s = [])

/-- The fragment list produced by the greedy packer, before hashtag
re-attachment and numbering. -/
def coreOf (story : List Char) (limit : Nat) : List (List Char) :=
  packSentences limit (tagsOf story).length (sentencesOf story)

/-- Lines 158-160 of src/main.py: `if tweets and hashtags: tweets[-1] += hashtags`. -/
def withTagsOf (story : List Char) (limit : Nat) : List (List Char) :=
  if ¬coreOf story limit = [] ∧ ¬tagsOf story = [] then
    appendToLast (tagsOf story) (coreOf story limit)
  else coreOf story limit

/-- `TweetGenerator._split_story_into_tweets` (src/main.py lines 96-167) with
`limit = self.config.thread_max_length`: identity below the limit, otherwise
hashtag extraction, sentence splitting, greedy packing, hashtag
re-attachment, and numbering when more than one fragment results. -/
def splitStoryIntoTweets (story : List Char) (limit : Nat) : List (List Char) :=
  if story.length ≤ limit then [story]
  else if 1 < (withTagsOf story limit).length then
    numberFrom (withTagsOf story limit).length 0 (withTagsOf story limit)
  else withTagsOf story limit

/-! ### Auxiliary notions used in the statements about the splitter -/

/-- The words of a fragment list, in order. -/
def wordsFlat (l : List (List Char)) : List (List Char) :=
  (l.map pyWords).flatten

/-- A fragment produced by the greedy packer is *good* when it fits in
`limit - 10` characters, or is a whole sentence of the input, or a whole
word of one of its sentences (the two kinds of unit the packer can emit
unchecked). -/
def GoodFrag (L10 : Int) (S : List (List Char)) (f : List Char) : Prop :=
  (f.length : Int) ≤ L10 ∨ f ∈ S ∨ ∃ s ∈ S, f ∈ pyWords s

/-- Remove an `n`-character suffix from a string. -/
def chopSuffix (n : Nat) (l : List Char) : List Char :=
  l.take (l.length - n)

/-- Remove the `" (i/n)"` numbering suffixes from a fragment list
(1-indexed from `i`), the inverse of `numberFrom`. -/
def stripNumFrom (n : Nat) : Nat → List (List Char) → List (List Char)
  | _, [] => []
  | i, f :: rest => chopSuffix (numSuffix (i + 1) n).length f :: stripNumFrom n (i + 1) rest

/-- Remove an `n`-character suffix from the last fragment only, the inverse
of `appendToLast`. -/
def chopLastSuffix (n : Nat) : List (List Char) → List (List Char)
  | [] => []
  | [f] => [chopSuffix n f]
  | f :: g :: rest => f :: chopLastSuffix n (g :: rest)

/-! ## Post-history store and scheduler (src/scheduler.py)

Wall-clock instants are minutes since an epoch.  `strftime('%Y-%m-%d')`
equality between two instants is equality of their day indices, and `.hour`
is the minute of day divided by 60. -/

/-- The calendar date (day index) of an instant given in minutes since the
epoch: `strftime('%Y-%m-%d')`. -/
def dateOf (t : Nat) : Nat :=
  t / 1440

/-- The `.hour` field of an instant. -/
def hourOf (t : Nat) : Nat :=
  t % 1440 / 60

/-- Lines 114-118 / 131-135 of src/scheduler.py: the 12-hour time slot of an
instant (`true` = "morning", hours 0-11; `false` = "evening", hours 12-23). -/
def isMorning (t : Nat) : Bool :=
  hourOf t < 12

/-- The post dict produced by `generate_single_post` (src/main.py lines
40-64): story text, image path, and the generation timestamp. -/
structure GenPost where
  story : List Char
  imagePath : List Char
  timestamp : Nat
deriving DecidableEq, Repr

/-- One entry of `post_history.json` as written by `_record_post`
(src/scheduler.py lines 157-163). -/
structure PostRecord where
  date : Nat
  timestamp : Nat
  story : List Char
  imagePath : List Char
  postedAt : Nat
deriving DecidableEq, Repr

/-- `_already_posted_in_time_slot` (src/scheduler.py lines 102-145) on an
in-memory post list: scan for a record whose `date` equals today and whose
`timestamp`'s hour falls in the current 12-hour slot.  (Records are modelled
as well-formed; the missing-file and parse-failure paths are modelled by
`alreadyPostedStore` below.) -/
def alreadyPostedInTimeSlot (posts : List PostRecord) (now : Nat) : Bool :=
  posts.any fun p => p.date == dateOf now && (isMorning p.timestamp == isMorning now)

/-- Lines 157-163 of src/scheduler.py: the new record, with the story
truncated to 100 characters for storage and `posted_at = now`. -/
def mkRecord (post : GenPost) (now : Nat) : PostRecord :=
  { date := dateOf now
    timestamp := post.timestamp
    story := post.story.take 100
    imagePath := post.imagePath
    postedAt := now }

/-- Lines 167-172 of src/scheduler.py: keep only records with
`posted_at > now - 30 days`; stated additively (`now < posted_at + 43200`
minutes), which is the same inequality over the time line. -/
def pruneOld (posts : List PostRecord) (now : Nat) : List PostRecord :=
  posts.filter fun p => now < p.postedAt + 43200

/-- `_record_post` (src/scheduler.py lines 147-180) on an in-memory post
list: append the new record, then prune entries older than 30 days, and
persist the result. -/
def recordPost (posts : List PostRecord) (post : GenPost) (now : Nat) :
    List PostRecord :=
  pruneOld (posts ++ [mkRecord post now]) now

/-- `get_post_history` (src/scheduler.py lines 229-255) on an in-memory post
list: keep records with `posted_at > now - days` days (additively:
`now < posted_at + days * 1440`), sorted most recent first. -/
def getPostHistory (posts : List PostRecord) (days : Nat) (now : Nat) :
    List PostRecord :=
  (posts.filter fun p => now < p.postedAt + days * 1440).mergeSort
    fun a b => b.postedAt ≤ a.postedAt

/-- The possible outcomes of reading `post_history.json`: the file may be
missing (`os.path.exists` is false), unreadable or unparsable (`open` or
`json.load` raises), or hold a post list. -/
inductive StoreRead where
  | missing
  | corrupt
  | ok (posts : List PostRecord)
deriving DecidableEq

/-- Reading the backing store: `none` on a missing or failing read. -/
def readStore : StoreRead → Option (List PostRecord)
  | .missing => none
  | .corrupt => none
  | .ok posts => some posts

/-- `_already_posted_in_time_slot` including its file-handling paths:
a missing file returns `False` (line 105-106) and any read/parse exception
is caught and answered with `False` (lines 143-145). -/
def alreadyPostedStore (f : StoreRead) (now : Nat) : Bool :=
  match readStore f with
  | none => false
  | some posts => alreadyPostedInTimeSlot posts now

/-- `get_post_history` including its file-handling paths: a missing file
returns `[]` (lines 232-233) and any exception is caught and answered with
`[]` (lines 253-255). -/
def getPostHistoryStore (f : StoreRead) (days : Nat) (now : Nat) :
    List PostRecord :=
  match readStore f with
  | none => []
  | some posts => getPostHistory posts days now

/-- `_run_daily_generation` (src/scheduler.py lines 56-86) on an in-memory
store, for a run whose generation succeeds: if a post already exists in the
current slot, skip (no generation call, store untouched); otherwise generate
and record.  The run's wall clock is sampled once as `now` (the Python code
re-reads `datetime.now()` within the run, moments apart), so the generated
post's timestamp is `now`.  The returned flag says whether a generation call
was performed. -/
def runDailyGeneration (posts : List PostRecord) (now : Nat)
    (story image : List Char) : List PostRecord × Bool :=
  if alreadyPostedInTimeSlot posts now then (posts, false)
  else (recordPost posts ⟨story, image, now⟩ now, true)

/-- Scheduler-driven operation: a sequence of trigger firings, each with its
time and generated content, applied in order (the scheduler loop runs
triggers sequentially, src/scheduler.py lines 182-198). -/
def applyTriggers (posts : List PostRecord)
    (triggers : List (Nat × List Char × List Char)) : List PostRecord :=
  triggers.foldl (fun ps tr => (runDailyGeneration ps tr.1 tr.2.1 tr.2.2).1) posts

/-- The dedup invariant (spec §3): at most one record per (date, slot) pair. -/
def AtMostOnePerSlot (posts : List PostRecord) : Prop :=
  posts.Pairwise fun a b =>
    ¬(a.date = b.date ∧ isMorning a.timestamp = isMorning b.timestamp)

/-! ### Concrete stories used to witness and refute the claims -/

def exC9 : List Char := ("Short story.").data

def exC1 : List Char := ("aaaaaaaaaaaaaaaaaaaa").data

def exC1w : List Char := ("Sentence one. Sentence two. Sentence three. #Tag1 #Tag2").data

def exC3 : List Char := ("Hi there. Wwwww wwwww wwwww wwwww.").data

def exC3sent : List Char := ("Wwwww wwwww wwwww wwwww.").data

def exC3frag1 : List Char := ("Hi there. (1/2)").data

def exC3frag2 : List Char := ("Wwwww wwwww wwwww wwwww. (2/2)").data

def exC3word : List Char := ("Hi there.").data

def exC5 : List Char := (" #aa #bb").data

def exC5w : List Char := ("Aaaa bbbb. Cccc dddd. Eeee ffff. #One #Two").data

def exC6 : List Char := ("Gg hh. Ii jj. Kk ll. Mm nn oo pp.").data

/-! ### Concrete store states used to witness the scheduler claims -/

def exPost : GenPost :=
  ⟨("A tale of two tweets").data, ("img_1.png").data, 490⟩

def exPostLong : GenPost :=
  ⟨("abcdefghij abcdefghij abcdefghij abcdefghij abcdefghij abcdefghij abcdefghij abcdefghij abcdefghij abcde").data,
    ("img_2.png").data, 600⟩

def exRecMorning : PostRecord :=
  ⟨0, 490, ("stored").data, ("img_1.png").data, 495⟩

def exRecOld : PostRecord :=
  ⟨0, 5, ("ancient").data, ("img_0.png").data, 10⟩

/-! ## Lemmas about the string helpers -/

theorem dropWhile_idem (p : Char → Bool) (l : List Char) :
    (l.dropWhile p).dropWhile p = l.dropWhile p := by
  induction l with
  | nil => rfl
  | cons c rest ih =>
    by_cases hc : p c = true
    · simp [List.dropWhile, hc, ih]
    · simp [List.dropWhile, hc]

theorem length_dropTrailing_le (l : List Char) :
    (dropTrailing l).length ≤ l.length := by
  induction l with
  | nil => simp [dropTrailing]
  | cons c rest ih =>
    simp only [dropTrailing]
    split
    · simp
    · simpa using ih

theorem dropTrailing_idem (l : List Char) :
    dropTrailing (dropTrailing l) = dropTrailing l := by
  induction l with
  | nil => rfl
  | cons c rest ih =>
    simp only [dropTrailing]
    split
    · rfl
    · rename_i h
      simp only [dropTrailing, ih]
      split
      · rename_i h2
        exact absurd ⟨h2.1, h2.2⟩ h
      · rfl

theorem dropWhile_dropTrailing (p : Char → Bool) (l : List Char)
    (h : l.dropWhile p = l) : (dropTrailing l).dropWhile p = dropTrailing l := by
  cases l with
  | nil => rfl
  | cons c rest =>
    have hc : p c = false := by
      by_contra hc
      have hc' : p c = true := by
        cases hpc : p c
        · exact absurd hpc hc
        · rfl
      have h1 : (rest.dropWhile p).length ≤ rest.length :=
        (List.dropWhile_sublist p).length_le
      rw [List.dropWhile_cons_of_pos hc'] at h
      have h2 := congrArg List.length h
      simp at h2
      omega
    simp only [dropTrailing]
    split
    · rfl
    · exact List.dropWhile_cons_of_neg (by simp [hc])

theorem stripChars_idem (s : List Char) :
    stripChars (stripChars s) = stripChars s := by
  unfold stripChars
  rw [dropWhile_dropTrailing _ _ (dropWhile_idem _ s), dropTrailing_idem]

theorem length_stripChars_le (s : List Char) :
    (stripChars s).length ≤ s.length := by
  unfold stripChars
  exact le_trans (length_dropTrailing_le _) (List.dropWhile_sublist _).length_le

theorem dropTrailing_eq_self (s : List Char) (h : ∀ c ∈ s, isPySpace c = false) :
    dropTrailing s = s := by
  induction s with
  | nil => rfl
  | cons c rest ih =>
    simp only [dropTrailing]
    rw [ih (fun x hx => h x (by simp [hx]))]
    split
    · rename_i h2
      exact absurd h2.2 (by simp [h c (by simp)])
    · rfl

theorem stripChars_eq_self (s : List Char) (h : ∀ c ∈ s, isPySpace c = false) :
    stripChars s = s := by
  unfold stripChars
  have hdw : s.dropWhile isPySpace = s := by
    cases s with
    | nil => rfl
    | cons c rest => exact List.dropWhile_cons_of_neg (by simp [h c (by simp)])
  rw [hdw]
  exact dropTrailing_eq_self s h

theorem dropTrailing_spec (l : List Char) :
    ∃ sp, l = dropTrailing l ++ sp ∧ ∀ c ∈ sp, isPySpace c = true := by
  induction l with
  | nil => exact ⟨[], by simp [dropTrailing]⟩
  | cons c rest ih =>
    obtain ⟨sp, hsp, hall⟩ := ih
    simp only [dropTrailing]
    split
    · rename_i h2
      refine ⟨c :: rest, by simp, fun x hx => ?_⟩
      rcases List.mem_cons.mp hx with h | h
      · exact h ▸ h2.2
      · rw [h2.1] at hsp
        simp only [List.nil_append] at hsp
        exact hall x (hsp ▸ h)
    · exact ⟨sp, by simpa using hsp, hall⟩

/-! ## Lemmas about `pyWords` -/

theorem pyWordsAux_members (l : List Char) :
    ∀ cur, (∀ c ∈ cur, isPySpace c = false) →
      ∀ w ∈ pyWordsAux l cur, w ≠ [] ∧ ∀ c ∈ w, isPySpace c = false := by
  induction l with
  | nil =>
    intro cur hcur w hw
    simp only [pyWordsAux] at hw
    split at hw
    · simp at hw
    · rename_i hne
      simp only [List.mem_singleton] at hw
      subst hw
      exact ⟨by simpa using hne, fun c hc => hcur c (List.mem_reverse.mp hc)⟩
  | cons c rest ih =>
    intro cur hcur w hw
    simp only [pyWordsAux] at hw
    split at hw
    · split at hw
      · exact ih [] (by simp) w hw
      · rename_i hne
        rcases List.mem_cons.mp hw with h | h
        · subst h
          exact ⟨by simpa using hne, fun x hx => hcur x (List.mem_reverse.mp hx)⟩
        · exact ih [] (by simp) w h
    · rename_i hc
      refine ih (c :: cur) ?_ w hw
      intro x hx
      rcases List.mem_cons.mp hx with h | h
      · subst h
        cases hpc : isPySpace x
        · rfl
        · exact absurd hpc hc
      · exact hcur x h

theorem pyWords_members (s w : List Char) (hw : w ∈ pyWords s) :
    w ≠ [] ∧ ∀ c ∈ w, isPySpace c = false :=
  pyWordsAux_members s [] (by simp) w hw

theorem stripChars_of_word (s w : List Char) (hw : w ∈ pyWords s) :
    stripChars w = w :=
  stripChars_eq_self w (pyWords_members s w hw).2

theorem pyWordsAux_ne (l : List Char) :
    ∀ cur, cur ≠ [] → pyWordsAux l cur ≠ [] := by
  induction l with
  | nil =>
    intro cur hcur
    simp [pyWordsAux, hcur]
  | cons c rest ih =>
    intro cur hcur
    simp only [pyWordsAux]
    split
    · simp [hcur]
    · exact ih (c :: cur) (by simp)

theorem pyWords_ne_of_stripped (s : List Char) (hne : s ≠ [])
    (hs : stripChars s = s) : pyWords s ≠ [] := by
  cases s with
  | nil => exact absurd rfl hne
  | cons c rest =>
    have hc : isPySpace c = false := by
      by_contra hc
      have hc' : isPySpace c = true := by
        cases hpc : isPySpace c
        · exact absurd hpc hc
        · rfl
      have h1 : (stripChars (c :: rest)).length ≤ rest.length := by
        unfold stripChars
        rw [List.dropWhile_cons_of_pos hc']
        exact le_trans (length_dropTrailing_le _) (List.dropWhile_sublist _).length_le
      rw [hs] at h1
      simp at h1
    simp only [pyWords, pyWordsAux, hc]
    exact pyWordsAux_ne rest [c] (by simp)

theorem pyWordsAux_all_spaces (sp : List Char) (hsp : ∀ c ∈ sp, isPySpace c = true) :
    ∀ cur, pyWordsAux sp cur = if cur = [] then [] else [cur.reverse] := by
  induction sp with
  | nil => intro cur; rfl
  | cons c sp' ih =>
    intro cur
    have hc : isPySpace c = true := hsp c (by simp)
    have ih' := ih (fun x hx => hsp x (by simp [hx]))
    simp only [pyWordsAux, hc, if_true, ih' []]

theorem pyWordsAux_append_spaces (l sp : List Char)
    (hsp : ∀ c ∈ sp, isPySpace c = true) :
    ∀ cur, pyWordsAux (l ++ sp) cur = pyWordsAux l cur := by
  induction l with
  | nil =>
    intro cur
    rw [List.nil_append, pyWordsAux_all_spaces sp hsp cur]
    cases cur <;> simp [pyWordsAux]
  | cons c l' ih =>
    intro cur
    simp only [List.cons_append, pyWordsAux, List.append_eq]
    split
    · split <;> rw [ih]
    · rw [ih]

theorem pyWordsAux_append_space_cons (l ys : List Char) :
    ∀ cur, pyWordsAux (l ++ ' ' :: ys) cur =
      pyWordsAux l cur ++ pyWordsAux ys [] := by
  induction l with
  | nil =>
    intro cur
    have hsp : isPySpace ' ' = true := by decide
    simp only [List.nil_append, pyWordsAux, hsp, if_true]
    split <;> simp [pyWordsAux]
  | cons c l' ih =>
    intro cur
    simp only [List.cons_append, pyWordsAux, List.append_eq]
    split
    · split
      · rw [ih]
      · rw [ih]
        simp
    · rw [ih]

theorem pyWords_join (a b : List Char) :
    pyWords (joinSp a b) = pyWords a ++ pyWords b := by
  unfold joinSp
  split
  · rename_i h
    subst h
    simp [pyWords, pyWordsAux]
  · exact pyWordsAux_append_space_cons a b []

theorem pyWords_dropWhile_space (l : List Char) :
    pyWords (l.dropWhile isPySpace) = pyWords l := by
  induction l with
  | nil => rfl
  | cons c rest ih =>
    by_cases hc : isPySpace c = true
    · rw [List.dropWhile_cons_of_pos hc]
      rw [ih]
      simp [pyWords, pyWordsAux, hc]
    · rw [List.dropWhile_cons_of_neg hc]

theorem pyWords_stripChars (s : List Char) :
    pyWords (stripChars s) = pyWords s := by
  unfold stripChars
  obtain ⟨sp, hsp, hall⟩ := dropTrailing_spec (s.dropWhile isPySpace)
  calc pyWords (dropTrailing (s.dropWhile isPySpace))
      = pyWordsAux (dropTrailing (s.dropWhile isPySpace) ++ sp) [] :=
        (pyWordsAux_append_spaces _ sp hall []).symm
    _ = pyWords (s.dropWhile isPySpace) := by rw [← hsp]; rfl
    _ = pyWords s := pyWords_dropWhile_space s

theorem pyWordsAux_no_space (l : List Char) (hl : ∀ c ∈ l, isPySpace c = false) :
    ∀ cur, (cur ≠ [] ∨ l ≠ []) → pyWordsAux l cur = [cur.reverse ++ l] := by
  induction l with
  | nil =>
    intro cur hcur
    rcases hcur with h | h
    · simp [pyWordsAux, h]
    · exact absurd rfl h
  | cons c rest ih =>
    intro cur _
    have hc : isPySpace c = false := hl c (by simp)
    simp only [pyWordsAux, hc]
    rw [if_neg (by simp)]
    rw [ih (fun x hx => hl x (by simp [hx])) (c :: cur) (Or.inl (by simp))]
    simp

theorem pyWords_single (s w : List Char) (hw : w ∈ pyWords s) :
    pyWords w = [w] := by
  obtain ⟨hne, hsp⟩ := pyWords_members s w hw
  unfold pyWords
  rw [pyWordsAux_no_space w hsp [] (Or.inr hne)]
  simp

/-! ## Invariants of the greedy packer -/

theorem GoodFrag_stripChars (L10 : Int) (S : List (List Char))
    (hS : ∀ x ∈ S, stripChars x = x) (f : List Char) (h : GoodFrag L10 S f) :
    GoodFrag L10 S (stripChars f) := by
  rcases h with h | h | ⟨s, hs, hw⟩
  · left
    have := length_stripChars_le f
    omega
  · right; left
    rw [hS f h]
    exact h
  · right; right
    rw [stripChars_of_word s f hw]
    exact ⟨s, hs, hw⟩

theorem packWordStep_inv (A L10 : Int) (hA : A ≤ L10) (S : List (List Char))
    (s : List Char) (hs : s ∈ S) (tw : List (List Char)) (cur w : List Char)
    (hw : w ∈ pyWords s)
    (htw : ∀ f ∈ tw, GoodFrag L10 S f)
    (hcur : cur = [] ∨ (cur.length : Int) ≤ A ∨ cur ∈ pyWords s) :
    (∀ f ∈ (packWordStep A (tw, cur) w).1, GoodFrag L10 S f) ∧
    ((packWordStep A (tw, cur) w).2 = [] ∨
      ((packWordStep A (tw, cur) w).2.length : Int) ≤ A ∨
      (packWordStep A (tw, cur) w).2 ∈ pyWords s) := by
  simp only [packWordStep]
  by_cases hfit : ((joinSp cur w).length : Int) ≤ A
  · rw [if_pos hfit]
    exact ⟨htw, Or.inr (Or.inl hfit)⟩
  · rw [if_neg hfit]
    by_cases hc : cur = []
    · rw [if_pos hc]
      exact ⟨htw, Or.inr (Or.inr hw)⟩
    · rw [if_neg hc]
      refine ⟨?_, Or.inr (Or.inr hw)⟩
      intro f hf
      rcases List.mem_append.mp hf with hf | hf
      · exact htw f hf
      · have hfe : f = stripChars cur := by simpa using hf
        subst hfe
        rcases hcur with h | h | h
        · exact absurd h hc
        · left
          have := length_stripChars_le cur
          omega
        · right; right
          rw [stripChars_of_word s cur h]
          exact ⟨s, hs, h⟩

theorem packWords_fold_inv (A L10 : Int) (hA : A ≤ L10) (S : List (List Char))
    (s : List Char) (hs : s ∈ S) :
    ∀ ws : List (List Char), (∀ w ∈ ws, w ∈ pyWords s) →
      ∀ tw cur, (∀ f ∈ tw, GoodFrag L10 S f) →
        (cur = [] ∨ (cur.length : Int) ≤ A ∨ cur ∈ pyWords s) →
        (∀ f ∈ (ws.foldl (packWordStep A) (tw, cur)).1, GoodFrag L10 S f) ∧
        ((ws.foldl (packWordStep A) (tw, cur)).2 = [] ∨
          ((ws.foldl (packWordStep A) (tw, cur)).2.length : Int) ≤ A ∨
          (ws.foldl (packWordStep A) (tw, cur)).2 ∈ pyWords s) := by
  intro ws
  induction ws with
  | nil =>
    intro _ tw cur htw hcur
    exact ⟨htw, hcur⟩
  | cons w ws' ih =>
    intro hws tw cur htw hcur
    have hstep := packWordStep_inv A L10 hA S s hs tw cur w (hws w (by simp)) htw hcur
    simp only [List.foldl_cons]
    exact ih (fun x hx => hws x (by simp [hx]))
      (packWordStep A (tw, cur) w).1 (packWordStep A (tw, cur) w).2 hstep.1 hstep.2

theorem packWordStep_ne (A : Int) (tw : List (List Char)) (cur w : List Char)
    (hw : w ≠ []) : (packWordStep A (tw, cur) w).2 ≠ [] := by
  simp only [packWordStep]
  by_cases hfit : ((joinSp cur w).length : Int) ≤ A
  · rw [if_pos hfit]
    unfold joinSp
    split <;> simp [hw]
  · rw [if_neg hfit]
    by_cases hc : cur = []
    · rw [if_pos hc]
      exact hw
    · rw [if_neg hc]
      exact hw

theorem packWords_fold_ne (A : Int) :
    ∀ ws : List (List Char), (∀ w ∈ ws, w ≠ []) →
      ∀ tw cur, (cur ≠ [] ∨ ws ≠ []) →
      (ws.foldl (packWordStep A) (tw, cur)).2 ≠ [] := by
  intro ws
  induction ws with
  | nil =>
    intro _ tw cur h
    rcases h with h | h
    · exact h
    · exact absurd rfl h
  | cons w ws' ih =>
    intro hws tw cur _
    simp only [List.foldl_cons]
    exact ih (fun x hx => hws x (by simp [hx]))
      (packWordStep A (tw, cur) w).1 (packWordStep A (tw, cur) w).2
      (Or.inl (packWordStep_ne A tw cur w (hws w (by simp))))

theorem packSentenceStep_inv (limit hlen : Nat) (lastSent : List Char)
    (S : List (List Char)) (hS : ∀ x ∈ S, stripChars x = x ∧ x ≠ [])
    (s : List Char) (hs : s ∈ S) (tw : List (List Char)) (cur : List Char)
    (htw : ∀ f ∈ tw, GoodFrag ((limit : Int) - 10) S f)
    (hcur : cur = [] ∨ GoodFrag ((limit : Int) - 10) S cur) :
    (∀ f ∈ (packSentenceStep limit hlen lastSent (tw, cur) s).1,
        GoodFrag ((limit : Int) - 10) S f) ∧
    (packSentenceStep limit hlen lastSent (tw, cur) s).2 ≠ [] ∧
    (((packSentenceStep limit hlen lastSent (tw, cur) s).2.length : Int) ≤
        (limit : Int) - 10 - (if s = lastSent then (hlen : Int) else 0) ∨
      (packSentenceStep limit hlen lastSent (tw, cur) s).2 ∈ S ∨
      ∃ s' ∈ S, (packSentenceStep limit hlen lastSent (tw, cur) s).2 ∈ pyWords s') := by
  have hsne : s ≠ [] := (hS s hs).2
  have hsstrip : stripChars s = s := (hS s hs).1
  have hA : (limit : Int) - 10 - (if s = lastSent then (hlen : Int) else 0) ≤
      (limit : Int) - 10 := by
    split <;> omega
  simp only [packSentenceStep]
  by_cases hfit :
      ((joinSp cur s).length : Int) ≤
        (limit : Int) - 10 - (if s = lastSent then (hlen : Int) else 0)
  · rw [if_pos hfit]
    refine ⟨htw, ?_, Or.inl hfit⟩
    unfold joinSp
    split <;> simp [hsne]
  · rw [if_neg hfit]
    by_cases hc : ¬cur = []
    · rw [if_pos hc]
      refine ⟨?_, hsne, Or.inr (Or.inl hs)⟩
      intro f hf
      rcases List.mem_append.mp hf with hf | hf
      · exact htw f hf
      · have hfe : f = stripChars cur := by simpa using hf
        subst hfe
        rcases hcur with h | h
        · exact absurd h hc
        · exact GoodFrag_stripChars _ S (fun x hx => (hS x hx).1) cur h
    · rw [if_neg hc]
      have hcur' : cur = [] := by
        by_contra h
        exact hc h
      have hfold := packWords_fold_inv
        ((limit : Int) - 10 - (if s = lastSent then (hlen : Int) else 0))
        ((limit : Int) - 10) hA S s hs (pyWords s) (fun w hw => hw) tw []
        htw (Or.inl rfl)
      have hne := packWords_fold_ne
        ((limit : Int) - 10 - (if s = lastSent then (hlen : Int) else 0))
        (pyWords s) (fun w hw => (pyWords_members s w hw).1) tw []
        (Or.inr (pyWords_ne_of_stripped s hsne hsstrip))
      refine ⟨hfold.1, hne, ?_⟩
      rcases hfold.2 with h | h | h
      · exact absurd h hne
      · exact Or.inl h
      · exact Or.inr (Or.inr ⟨s, hs, h⟩)

theorem getLastD_irrel (l : List (List Char)) (h : l ≠ []) (d₁ d₂ : List Char) :
    l.getLastD d₁ = l.getLastD d₂ := by
  induction l generalizing d₁ d₂ with
  | nil => exact absurd rfl h
  | cons a l' ih =>
    cases l' with
    | nil => rfl
    | cons b t => simp only [List.getLastD_cons]

theorem packFold_inv (limit hlen : Nat) (lastSent : List Char)
    (S : List (List Char)) (hS : ∀ x ∈ S, stripChars x = x ∧ x ≠ []) :
    ∀ l : List (List Char), (∀ x ∈ l, x ∈ S) →
      ∀ tw cur, (∀ f ∈ tw, GoodFrag ((limit : Int) - 10) S f) →
        (cur = [] ∨ GoodFrag ((limit : Int) - 10) S cur) →
        (∀ f ∈ (l.foldl (packSentenceStep limit hlen lastSent) (tw, cur)).1,
            GoodFrag ((limit : Int) - 10) S f) ∧
        ((l.foldl (packSentenceStep limit hlen lastSent) (tw, cur)).2 = [] ∨
          GoodFrag ((limit : Int) - 10) S
            (l.foldl (packSentenceStep limit hlen lastSent) (tw, cur)).2) ∧
        (l ≠ [] →
          (l.foldl (packSentenceStep limit hlen lastSent) (tw, cur)).2 ≠ [] ∧
          (((l.foldl (packSentenceStep limit hlen lastSent) (tw, cur)).2.length : Int) ≤
              (limit : Int) - 10 -
                (if l.getLastD [] = lastSent then (hlen : Int) else 0) ∨
            (l.foldl (packSentenceStep limit hlen lastSent) (tw, cur)).2 ∈ S ∨
            ∃ s' ∈ S,
              (l.foldl (packSentenceStep limit hlen lastSent) (tw, cur)).2 ∈ pyWords s')) := by
  intro l
  induction l with
  | nil =>
    intro _ tw cur htw hcur
    exact ⟨htw, hcur, fun h => absurd rfl h⟩
  | cons s l' ih =>
    intro hl tw cur htw hcur
    have hs : s ∈ S := hl s (by simp)
    have hstep := packSentenceStep_inv limit hlen lastSent S hS s hs tw cur htw hcur
    obtain ⟨tw1, cur1, hst⟩ :
        ∃ tw1 cur1, packSentenceStep limit hlen lastSent (tw, cur) s = (tw1, cur1) :=
      ⟨_, _, rfl⟩
    rw [hst] at hstep
    have hband : (limit : Int) - 10 - (if s = lastSent then (hlen : Int) else 0) ≤
        (limit : Int) - 10 := by
      split <;> omega
    have hcur1 : cur1 = [] ∨ GoodFrag ((limit : Int) - 10) S cur1 := by
      right
      rcases hstep.2.2 with h | h | h
      · exact Or.inl (by simp only at h; omega)
      · exact Or.inr (Or.inl h)
      · exact Or.inr (Or.inr h)
    have hrec := ih (fun x hx => hl x (by simp [hx])) tw1 cur1 hstep.1 hcur1
    simp only [List.foldl_cons, hst]
    refine ⟨hrec.1, hrec.2.1, fun _ => ?_⟩
    by_cases hl' : l' = []
    · subst hl'
      simp only [List.foldl_nil]
      refine ⟨by simpa using hstep.2.1, ?_⟩
      simpa using hstep.2.2
    · have h3 := hrec.2.2 hl'
      refine ⟨h3.1, ?_⟩
      have hlast : (s :: l').getLastD [] = l'.getLastD [] := by
        rw [List.getLastD_cons]
        exact getLastD_irrel l' hl' s []
      rw [hlast]
      exact h3.2

theorem packSentences_frags (limit hlen : Nat) (S : List (List Char))
    (hS : ∀ x ∈ S, stripChars x = x ∧ x ≠ []) :
    (∀ f ∈ packSentences limit hlen S, GoodFrag ((limit : Int) - 10) S f) ∧
    (S ≠ [] → ∃ fs lastF, packSentences limit hlen S = fs ++ [lastF] ∧
      (∀ f ∈ fs, GoodFrag ((limit : Int) - 10) S f) ∧
      ((lastF.length : Int) ≤ (limit : Int) - 10 - (hlen : Int) ∨ lastF ∈ S ∨
        ∃ s' ∈ S, lastF ∈ pyWords s')) := by
  have hfold := packFold_inv limit hlen (S.getLastD []) S hS S (fun x hx => hx)
    [] [] (by simp) (Or.inl rfl)
  unfold packSentences
  constructor
  · intro f hf
    by_cases hne : (S.foldl (packSentenceStep limit hlen (S.getLastD [])) ([], [])).2 = []
    · rw [if_pos hne] at hf
      exact hfold.1 f hf
    · rw [if_neg hne] at hf
      rcases List.mem_append.mp hf with hf | hf
      · exact hfold.1 f hf
      · have hfe : f = stripChars
            (S.foldl (packSentenceStep limit hlen (S.getLastD [])) ([], [])).2 := by
          simpa using hf
        subst hfe
        rcases hfold.2.1 with h | h
        · exact absurd h hne
        · exact GoodFrag_stripChars _ S (fun x hx => (hS x hx).1) _ h
  · intro hSne
    have h3 := hfold.2.2 hSne
    rw [if_neg h3.1]
    refine ⟨(S.foldl (packSentenceStep limit hlen (S.getLastD [])) ([], [])).1,
      stripChars (S.foldl (packSentenceStep limit hlen (S.getLastD [])) ([], [])).2,
      rfl, hfold.1, ?_⟩
    rcases h3.2 with h | h | ⟨s', hs', h⟩
    · left
      rw [if_pos rfl] at h
      have := length_stripChars_le
        (S.foldl (packSentenceStep limit hlen (S.getLastD [])) ([], [])).2
      omega
    · right; left
      rw [(hS _ h).1]
      exact h
    · right; right
      rw [stripChars_of_word s' _ h]
      exact ⟨s', hs', h⟩

/-! ## The packer neither loses, duplicates nor reorders words -/

theorem wordsFlat_append (l₁ l₂ : List (List Char)) :
    wordsFlat (l₁ ++ l₂) = wordsFlat l₁ ++ wordsFlat l₂ := by
  simp [wordsFlat]

theorem wordsFlat_cons (x : List Char) (l : List (List Char)) :
    wordsFlat (x :: l) = pyWords x ++ wordsFlat l := by
  simp [wordsFlat]

theorem wordsFlat_pyWords (s : List Char) :
    wordsFlat (pyWords s) = pyWords s := by
  unfold wordsFlat
  have h : (pyWords s).map pyWords = (pyWords s).map (fun w => [w]) :=
    List.map_congr_left (fun w hw => pyWords_single s w hw)
  rw [h]
  induction pyWords s with
  | nil => rfl
  | cons w ws ih => simp [ih]

theorem packWordStep_words (A : Int) (tw : List (List Char)) (cur w : List Char) :
    wordsFlat (packWordStep A (tw, cur) w).1 ++ pyWords (packWordStep A (tw, cur) w).2 =
    wordsFlat tw ++ pyWords cur ++ pyWords w := by
  simp only [packWordStep]
  by_cases hfit : ((joinSp cur w).length : Int) ≤ A
  · rw [if_pos hfit]
    simp [pyWords_join, List.append_assoc]
  · rw [if_neg hfit]
    by_cases hc : cur = []
    · rw [if_pos hc]
      subst hc
      simp [pyWords, pyWordsAux]
    · rw [if_neg hc]
      simp [wordsFlat_append, wordsFlat_cons, wordsFlat, pyWords_stripChars,
        List.append_assoc]

theorem packWords_fold_words (A : Int) :
    ∀ ws : List (List Char), ∀ tw cur,
      wordsFlat (ws.foldl (packWordStep A) (tw, cur)).1 ++
        pyWords (ws.foldl (packWordStep A) (tw, cur)).2 =
      wordsFlat tw ++ pyWords cur ++ wordsFlat ws := by
  intro ws
  induction ws with
  | nil =>
    intro tw cur
    simp [wordsFlat]
  | cons w ws' ih =>
    intro tw cur
    obtain ⟨tw1, cur1, hst⟩ :
        ∃ tw1 cur1, packWordStep A (tw, cur) w = (tw1, cur1) := ⟨_, _, rfl⟩
    have hw := packWordStep_words A tw cur w
    rw [hst] at hw
    simp only at hw
    simp only [List.foldl_cons, hst, ih tw1 cur1, wordsFlat_cons, hw]
    simp [List.append_assoc]

theorem packSentenceStep_words (limit hlen : Nat) (lastSent : List Char)
    (tw : List (List Char)) (cur s : List Char) :
    wordsFlat (packSentenceStep limit hlen lastSent (tw, cur) s).1 ++
      pyWords (packSentenceStep limit hlen lastSent (tw, cur) s).2 =
    wordsFlat tw ++ pyWords cur ++ pyWords s := by
  simp only [packSentenceStep]
  by_cases hfit : ((joinSp cur s).length : Int) ≤
      (limit : Int) - 10 - (if s = lastSent then (hlen : Int) else 0)
  · rw [if_pos hfit]
    simp [pyWords_join, List.append_assoc]
  · rw [if_neg hfit]
    by_cases hc : ¬cur = []
    · rw [if_pos hc]
      simp [wordsFlat_append, wordsFlat_cons, wordsFlat, pyWords_stripChars,
        List.append_assoc]
    · rw [if_neg hc]
      have hcur : cur = [] := by
        by_contra h
        exact hc h
      subst hcur
      rw [packWords_fold_words]
      rw [wordsFlat_pyWords]

theorem packFold_words (limit hlen : Nat) (lastSent : List Char) :
    ∀ l : List (List Char), ∀ tw cur,
      wordsFlat (l.foldl (packSentenceStep limit hlen lastSent) (tw, cur)).1 ++
        pyWords (l.foldl (packSentenceStep limit hlen lastSent) (tw, cur)).2 =
      wordsFlat tw ++ pyWords cur ++ wordsFlat l := by
  intro l
  induction l with
  | nil =>
    intro tw cur
    simp [wordsFlat]
  | cons s l' ih =>
    intro tw cur
    obtain ⟨tw1, cur1, hst⟩ :
        ∃ tw1 cur1, packSentenceStep limit hlen lastSent (tw, cur) s = (tw1, cur1) :=
      ⟨_, _, rfl⟩
    have hw := packSentenceStep_words limit hlen lastSent tw cur s
    rw [hst] at hw
    simp only at hw
    simp only [List.foldl_cons, hst, ih tw1 cur1, wordsFlat_cons, hw]
    simp [List.append_assoc]

theorem packSentences_words (limit hlen : Nat) (S : List (List Char)) :
    wordsFlat (packSentences limit hlen S) = wordsFlat S := by
  unfold packSentences
  have h := packFold_words limit hlen (S.getLastD []) S [] []
  by_cases hne : (S.foldl (packSentenceStep limit hlen (S.getLastD [])) ([], [])).2 = []
  · rw [if_pos hne]
    rw [hne] at h
    simpa [wordsFlat, pyWords, pyWordsAux] using h
  · rw [if_neg hne]
    rw [wordsFlat_append]
    have h2 : wordsFlat
        [stripChars (S.foldl (packSentenceStep limit hlen (S.getLastD [])) ([], [])).2] =
        pyWords (S.foldl (packSentenceStep limit hlen (S.getLastD [])) ([], [])).2 := by
      simp only [wordsFlat, List.map_cons, List.map_nil, List.flatten_cons,
        List.flatten_nil, List.append_nil]
      exact pyWords_stripChars _
    rw [h2]
    simpa [wordsFlat, pyWords, pyWordsAux] using h

theorem coreOf_words (T : List Char) (L : Nat) :
    wordsFlat (coreOf T L) = wordsFlat (sentencesOf T) :=
  packSentences_words L (tagsOf T).length (sentencesOf T)

theorem sentencesOf_props (T : List Char) :
    ∀ s ∈ sentencesOf T, stripChars s = s ∧ s ≠ [] := by
  intro s hs
  unfold sentencesOf at hs
  have hmem := List.mem_filter.mp hs
  have hne : s ≠ [] := by
    have := hmem.2
    simp at this
    exact this
  obtain ⟨t, _, ht⟩ := List.mem_map.mp hmem.1
  exact ⟨ht ▸ stripChars_idem t, hne⟩

/-! ## Numbering suffixes and fragment-list surgery -/

theorem natToCharsAux_length :
    ∀ fuel k n acc, n < 10 ^ k → 0 < k → k ≤ fuel →
      (natToCharsAux fuel n acc).length ≤ k + acc.length := by
  intro fuel
  induction fuel with
  | zero =>
    intro k n acc _ hk hle
    omega
  | succ fuel ih =>
    intro k n acc hn hk hle
    simp only [natToCharsAux]
    split
    · simp
      omega
    · rename_i hge
      have h10 : 10 ≤ n := by omega
      have hk2 : 2 ≤ k := by
        by_contra hk2
        have hk1 : k = 1 := by omega
        subst hk1
        simp at hn
        omega
      have hdiv : n / 10 < 10 ^ (k - 1) := by
        have : (10 : Nat) ^ k = 10 ^ (k - 1) * 10 := by
          have hk' : k - 1 + 1 = k := by omega
          rw [← hk', pow_succ]
          simp
        rw [Nat.div_lt_iff_lt_mul (by omega)]
        omega
      have := ih (k - 1) (n / 10) (Char.ofNat (48 + n % 10) :: acc) hdiv (by omega) (by omega)
      simp at this
      omega

theorem natToChars_length_le_three (n : Nat) (hn : n ≤ 999) :
    (natToChars n).length ≤ 3 := by
  unfold natToChars
  by_cases h10 : n < 10
  · simp only [natToCharsAux]
    rw [if_pos h10]
    simp
  · have := natToCharsAux_length (n + 1) 3 n [] (by omega) (by omega) (by omega)
    simpa using this

theorem numSuffix_length (i n : Nat) :
    (numSuffix i n).length = (natToChars i).length + (natToChars n).length + 4 := by
  simp [numSuffix]
  omega

theorem numSuffix_length_le_ten (i n : Nat) (hi : i ≤ 999) (hn : n ≤ 999) :
    (numSuffix i n).length ≤ 10 := by
  have h1 := natToChars_length_le_three i hi
  have h2 := natToChars_length_le_three n hn
  rw [numSuffix_length]
  omega

theorem numberFrom_length (n : Nat) :
    ∀ i l, (numberFrom n i l).length = l.length := by
  intro i l
  induction l generalizing i with
  | nil => rfl
  | cons f rest ih => simp [numberFrom, ih]

theorem numberFrom_getD (n : Nat) :
    ∀ (l : List (List Char)) (i j : Nat), j < l.length →
      (numberFrom n i l).getD j [] = l.getD j [] ++ numSuffix (i + j + 1) n := by
  intro l
  induction l with
  | nil =>
    intro i j hj
    simp at hj
  | cons f rest ih =>
    intro i j hj
    cases j with
    | zero => simp [numberFrom]
    | succ j' =>
      simp only [numberFrom, List.getD_cons_succ]
      rw [ih (i + 1) j' (by simpa using hj)]
      have : i + 1 + j' + 1 = i + (j' + 1) + 1 := by omega
      rw [this]

theorem appendToLast_length (x : List Char) :
    ∀ l, (appendToLast x l).length = l.length := by
  intro l
  induction l with
  | nil => rfl
  | cons f rest ih =>
    cases rest with
    | nil => rfl
    | cons g t =>
      simp only [appendToLast, List.length_cons]
      simpa using ih

theorem appendToLast_getD_lt (x : List Char) :
    ∀ (l : List (List Char)) (j : Nat), j + 1 < l.length →
      (appendToLast x l).getD j [] = l.getD j [] := by
  intro l
  induction l with
  | nil =>
    intro j hj
    simp at hj
  | cons f rest ih =>
    intro j hj
    cases rest with
    | nil => simp at hj
    | cons g t =>
      cases j with
      | zero => rfl
      | succ j' =>
        simp only [appendToLast, List.getD_cons_succ]
        exact ih j' (by simpa using hj)

theorem appendToLast_getD_last (x : List Char) :
    ∀ l : List (List Char), l ≠ [] →
      (appendToLast x l).getD (l.length - 1) [] = l.getD (l.length - 1) [] ++ x := by
  intro l
  induction l with
  | nil => intro h; exact absurd rfl h
  | cons f rest ih =>
    intro _
    cases rest with
    | nil => rfl
    | cons g t =>
      have hlen : (f :: g :: t).length - 1 = ((g :: t).length - 1) + 1 := by
        simp
      rw [hlen]
      simp only [appendToLast, List.getD_cons_succ]
      exact ih (by simp)

theorem chopSuffix_append (f x : List Char) :
    chopSuffix x.length (f ++ x) = f := by
  unfold chopSuffix
  simp only [List.length_append, Nat.add_sub_cancel]
  exact List.take_left f x

theorem stripNumFrom_numberFrom (n : Nat) :
    ∀ (l : List (List Char)) (i : Nat), stripNumFrom n i (numberFrom n i l) = l := by
  intro l
  induction l with
  | nil => intro i; rfl
  | cons f rest ih =>
    intro i
    simp only [numberFrom, stripNumFrom]
    rw [chopSuffix_append, ih (i + 1)]

theorem chopLastSuffix_appendToLast (x : List Char) :
    ∀ l : List (List Char), chopLastSuffix x.length (appendToLast x l) = l := by
  intro l
  induction l with
  | nil => rfl
  | cons f rest ih =>
    cases rest with
    | nil =>
      simp only [appendToLast, chopLastSuffix]
      rw [chopSuffix_append]
    | cons g t =>
      simp only [appendToLast]
      have hne : appendToLast x (g :: t) ≠ [] := by
        have := appendToLast_length x (g :: t)
        intro hcontra
        rw [hcontra] at this
        simp at this
      cases happ : appendToLast x (g :: t) with
      | nil => exact absurd happ hne
      | cons a u =>
        simp only [chopLastSuffix]
        rw [← happ]
        have := ih
        rw [happ] at this
        rw [happ]
        simpa [chopLastSuffix] using this

theorem chopLastSuffix_zero :
    ∀ l : List (List Char), chopLastSuffix 0 l = l := by
  intro l
  induction l with
  | nil => rfl
  | cons f rest ih =>
    cases rest with
    | nil => simp [chopLastSuffix, chopSuffix]
    | cons g t =>
      simp only [chopLastSuffix]
      simpa [chopLastSuffix] using ih

/-! ## Structural facts about `splitStoryIntoTweets` -/

theorem split_below_limit (T : List Char) (L : Nat) (h : T.length ≤ L) :
    splitStoryIntoTweets T L = [T] := by
  unfold splitStoryIntoTweets
  rw [if_pos h]

theorem withTagsOf_length (T : List Char) (L : Nat) :
    (withTagsOf T L).length = (coreOf T L).length := by
  unfold withTagsOf
  split
  · exact appendToLast_length _ _
  · rfl

theorem withTagsOf_getD_lt (T : List Char) (L : Nat) (i : Nat)
    (h : i + 1 < (coreOf T L).length) :
    (withTagsOf T L).getD i [] = (coreOf T L).getD i [] := by
  unfold withTagsOf
  split
  · exact appendToLast_getD_lt _ _ i h
  · rfl

theorem withTagsOf_getD_last (T : List Char) (L : Nat)
    (hc : ¬coreOf T L = []) :
    (withTagsOf T L).getD ((coreOf T L).length - 1) [] =
      (coreOf T L).getD ((coreOf T L).length - 1) [] ++ tagsOf T := by
  unfold withTagsOf
  split
  · exact appendToLast_getD_last _ _ hc
  · rename_i h
    have ht : tagsOf T = [] := by
      by_contra ht
      exact h ⟨hc, ht⟩
    rw [ht, List.append_nil]

theorem coreOf_eq_nil (T : List Char) (L : Nat) (h : sentencesOf T = []) :
    coreOf T L = [] := by
  unfold coreOf packSentences
  rw [h]
  simp

theorem coreOf_decomp (T : List Char) (L : Nat) (h : ¬sentencesOf T = []) :
    ∃ fs lastF, coreOf T L = fs ++ [lastF] ∧
      (∀ f ∈ fs, GoodFrag ((L : Int) - 10) (sentencesOf T) f) ∧
      ((lastF.length : Int) ≤ (L : Int) - 10 - ((tagsOf T).length : Int) ∨
        lastF ∈ sentencesOf T ∨ ∃ s' ∈ sentencesOf T, lastF ∈ pyWords s') :=
  (packSentences_frags L (tagsOf T).length (sentencesOf T) (sentencesOf_props T)).2 h

/-! ## The claims about the thread splitter -/

/-- C9: for every text `T` and limit `L` with `len(T) <= L`, split returns
`[T]` unchanged — no hashtag extraction, numbering or re-spacing. -/
theorem claim_C9 (T : List Char) (L : Nat) (h : T.length ≤ L) :
    splitStoryIntoTweets T L = [T] :=
  split_below_limit T L h

theorem claim_C9_witness : splitStoryIntoTweets exC9 280 = [exC9] :=
  claim_C9 exC9 280 (by decide)

/-- C6: for every text `T` that splits into more than one fragment, removing
the numbering suffixes and the trailing-hashtag suffix of the last fragment
and concatenating the fragments' words reproduces exactly the words of the
sentence content of `T` — no word lost, duplicated or reordered (whitespace
normalization aside). -/
theorem claim_C6 (T : List Char) (L : Nat)
    (h : 1 < (splitStoryIntoTweets T L).length) :
    wordsFlat (chopLastSuffix (tagsOf T).length
      (stripNumFrom (splitStoryIntoTweets T L).length 0 (splitStoryIntoTweets T L))) =
    wordsFlat (sentencesOf T) := by
  have hshort : ¬T.length ≤ L := by
    intro hle
    rw [split_below_limit T L hle] at h
    simp at h
  simp only [splitStoryIntoTweets, if_neg hshort] at h ⊢
  by_cases h1 : 1 < (withTagsOf T L).length
  · rw [if_pos h1]
    rw [numberFrom_length, stripNumFrom_numberFrom]
    unfold withTagsOf
    by_cases h2 : ¬coreOf T L = [] ∧ ¬tagsOf T = []
    · rw [if_pos h2, chopLastSuffix_appendToLast]
      exact coreOf_words T L
    · rw [if_neg h2]
      by_cases hc : coreOf T L = []
      · have hs : sentencesOf T = [] := by
          by_contra hs
          obtain ⟨fs, lastF, hcore, _, _⟩ := coreOf_decomp T L hs
          rw [hcore] at hc
          simp at hc
        rw [hc, hs]
        simp [chopLastSuffix, wordsFlat]
      · have ht : tagsOf T = [] := by
          by_contra ht
          exact h2 ⟨hc, ht⟩
        rw [ht]
        simp only [List.length_nil, chopLastSuffix_zero]
        exact coreOf_words T L
  · rw [if_neg h1] at h
    exact absurd h h1

theorem claim_C6_witness :
    wordsFlat (chopLastSuffix (tagsOf exC6).length
      (stripNumFrom (splitStoryIntoTweets exC6 15).length 0 (splitStoryIntoTweets exC6 15))) =
    wordsFlat (sentencesOf exC6) :=
  claim_C6 exC6 15 (by decide)

/-- C3 counterexample: in `exC3` at limit 30, the second sentence alone has
24 characters, exceeding the available space `30 - 10 = 20`, yet the
splitter does not fall back to word-by-word packing: the whole oversized
sentence is emitted as a single fragment (the buffer held the previous
sentence when it arrived, and the fallback only runs on an empty buffer). -/
theorem claim_C3_cex :
    (sentencesOf exC3).getD 1 [] = exC3sent ∧ 20 < exC3sent.length ∧
    splitStoryIntoTweets exC3 30 = [exC3frag1, exC3frag2] := by decide

/-- C3 amended: the word-by-word fallback only runs when the fragment buffer
is empty (an oversized sentence arriving while the buffer is nonempty is
flushed later as its own un-split fragment), but the second half of the
claim holds unconditionally: no fragment boundary ever falls inside a word —
every packed fragment's word list is a contiguous run of the input's
sentence words. -/
theorem claim_C3_amended (T : List Char) (L : Nat) (f : List Char)
    (hf : f ∈ coreOf T L) :
    ∃ pre post, pre ++ pyWords f ++ post = wordsFlat (sentencesOf T) := by
  obtain ⟨l₁, l₂, hdecomp⟩ := List.append_of_mem hf
  refine ⟨wordsFlat l₁, wordsFlat l₂, ?_⟩
  rw [← coreOf_words T L, hdecomp, wordsFlat_append, wordsFlat_cons]
  simp [List.append_assoc]

theorem claim_C3_amended_witness :
    ∃ pre post, pre ++ pyWords exC3word ++ post = wordsFlat (sentencesOf exC3) :=
  claim_C3_amended exC3 30 exC3word (by decide)

/-- C5 counterexample: a story that is nothing but a trailing hashtag run
longer than the limit splits into the empty fragment list, so the extracted
hashtag run is appended to no fragment at all. -/
theorem claim_C5_cex :
    splitStoryIntoTweets exC5 5 = [] ∧ ¬tagsOf exC5 = [] ∧ 5 < exC5.length := by
  decide

/-- C5 amended: when the split of an over-limit text is nonempty, the
extracted trailing hashtag run is appended to the last fragment and to no
other (every non-last fragment is its packed core plus numbering alone), and
the `" (i/N)"` numbering appears on every fragment iff more than one
fragment results. -/
theorem claim_C5_amended (T : List Char) (L : Nat)
    (hne : ¬splitStoryIntoTweets T L = []) (hlong : L < T.length) :
    (∀ i, i + 1 < (splitStoryIntoTweets T L).length →
      (splitStoryIntoTweets T L).getD i [] =
        (coreOf T L).getD i [] ++ numSuffix (i + 1) (splitStoryIntoTweets T L).length) ∧
    (1 < (splitStoryIntoTweets T L).length →
      (splitStoryIntoTweets T L).getD ((splitStoryIntoTweets T L).length - 1) [] =
        (coreOf T L).getD ((splitStoryIntoTweets T L).length - 1) [] ++ tagsOf T ++
          numSuffix (splitStoryIntoTweets T L).length (splitStoryIntoTweets T L).length) ∧
    ((splitStoryIntoTweets T L).length = 1 →
      splitStoryIntoTweets T L = [(coreOf T L).getD 0 [] ++ tagsOf T]) := by
  have hshort : ¬T.length ≤ L := by omega
  have hWlen := withTagsOf_length T L
  simp only [splitStoryIntoTweets, if_neg hshort] at hne ⊢
  by_cases h1 : 1 < (withTagsOf T L).length
  · rw [if_pos h1]
    rw [numberFrom_length]
    refine ⟨?_, ?_, ?_⟩
    · intro i hi
      rw [numberFrom_getD _ _ 0 i (by omega)]
      rw [withTagsOf_getD_lt T L i (by omega)]
      have : 0 + i + 1 = i + 1 := by omega
      rw [this]
    · intro _
      rw [numberFrom_getD _ _ 0 ((withTagsOf T L).length - 1) (by omega)]
      have hc : ¬coreOf T L = [] := by
        intro hc
        rw [hc] at hWlen
        simp only [List.length_nil] at hWlen
        omega
      have hidx : (withTagsOf T L).length - 1 = (coreOf T L).length - 1 := by omega
      rw [hidx, withTagsOf_getD_last T L hc]
      have : 0 + ((coreOf T L).length - 1) + 1 = (withTagsOf T L).length := by omega
      rw [this]
    · intro habs
      omega
  · rw [if_neg h1] at hne ⊢
    have hlen1 : (withTagsOf T L).length = 1 := by
      have : (withTagsOf T L).length ≠ 0 := by
        intro h0
        exact hne (List.length_eq_zero.mp h0)
      omega
    refine ⟨fun i hi => by omega, fun habs => by omega, fun _ => ?_⟩
    have hc : ¬coreOf T L = [] := by
      intro hc
      rw [hc] at hWlen
      simp only [List.length_nil] at hWlen
      omega
    have hclen : (coreOf T L).length = 1 := by omega
    obtain ⟨c0, hc0⟩ := List.length_eq_one.mp hclen
    unfold withTagsOf
    by_cases h2 : ¬coreOf T L = [] ∧ ¬tagsOf T = []
    · rw [if_pos h2, hc0]
      simp [appendToLast]
    · rw [if_neg h2]
      have ht : tagsOf T = [] := by
        by_contra ht
        exact h2 ⟨hc, ht⟩
      rw [ht, hc0]
      simp

theorem claim_C5_amended_witness :
    (splitStoryIntoTweets exC5w 30).getD ((splitStoryIntoTweets exC5w 30).length - 1) [] =
      (coreOf exC5w 30).getD ((splitStoryIntoTweets exC5w 30).length - 1) [] ++ tagsOf exC5w ++
        numSuffix (splitStoryIntoTweets exC5w 30).length (splitStoryIntoTweets exC5w 30).length :=
  (claim_C5_amended exC5w 30 (by decide) (by decide)).2.1 (by decide)

/-- C1 counterexample: a 20-character single-word story with NO trailing
hashtag run, split at limit 15, comes back as one 20-character fragment —
the length bound fails even though the documented hashtag floor-starvation
exception does not apply (there are no hashtags at all). -/
theorem claim_C1_cex :
    splitStoryIntoTweets exC1 15 = [exC1] ∧ 15 < exC1.length ∧ tagsOf exC1 = [] := by
  decide

/-- C1 amended: every rendered fragment is within `limit` characters,
except that (a) a fragment whose packed core is a single whole sentence or a
single whole word of the hashtag-stripped input may exceed it (the packer
emits such an oversized unit unchecked; the documented hashtag
floor-starvation case is an instance of this), and (b) beyond 999 fragments
the `" (i/N)"` numbering outgrows its fixed 10-character reservation. -/
theorem claim_C1_amended (T : List Char) (L : Nat)
    (hN : (splitStoryIntoTweets T L).length ≤ 999)
    (i : Nat) (hi : i < (splitStoryIntoTweets T L).length) :
    ((splitStoryIntoTweets T L).getD i []).length ≤ L ∨
    (coreOf T L).getD i [] ∈ sentencesOf T ∨
    ∃ s ∈ sentencesOf T, (coreOf T L).getD i [] ∈ pyWords s := by
  by_cases hshort : T.length ≤ L
  · left
    rw [split_below_limit T L hshort] at hi ⊢
    simp only [List.length_singleton] at hi
    have hi0 : i = 0 := by omega
    subst hi0
    simpa using hshort
  · have hWlen := withTagsOf_length T L
    simp only [splitStoryIntoTweets, if_neg hshort] at hi hN ⊢
    by_cases hSnil : sentencesOf T = []
    · have hc : coreOf T L = [] := coreOf_eq_nil T L hSnil
      have hW : withTagsOf T L = [] := by
        unfold withTagsOf
        rw [hc]
        simp
      rw [hW] at hi
      simp [numberFrom] at hi
    · obtain ⟨fs, lastF, hcore, hfs, hlastF⟩ := coreOf_decomp T L hSnil
      have hcorelen : (coreOf T L).length = fs.length + 1 := by
        rw [hcore]
        simp
      have hclast : (coreOf T L).getD ((coreOf T L).length - 1) [] = lastF := by
        rw [hcore]
        have h1 : (fs ++ [lastF]).length - 1 = fs.length := by simp
        rw [h1, List.getD_append_right fs [lastF] [] fs.length (le_refl _)]
        simp
      by_cases h1 : 1 < (withTagsOf T L).length
      · rw [if_pos h1] at hi hN ⊢
        have hNlen := numberFrom_length (withTagsOf T L).length 0 (withTagsOf T L)
        rw [hNlen] at hi hN
        rw [numberFrom_getD _ _ 0 i hi]
        have hns : (numSuffix (0 + i + 1) (withTagsOf T L).length).length ≤ 10 :=
          numSuffix_length_le_ten _ _ (by omega) (by omega)
        by_cases hilast : i + 1 < (withTagsOf T L).length
        · -- a non-last fragment: its core entry is an element of `fs`
          rw [withTagsOf_getD_lt T L i (by omega)]
          have hifs : i < fs.length := by omega
          have hcgd : (coreOf T L).getD i [] = fs.getD i [] := by
            rw [hcore]
            exact List.getD_append fs [lastF] [] i hifs
          have hmem : fs.getD i [] ∈ fs := by
            rw [List.getD_eq_getElem fs [] hifs]
            exact List.getElem_mem hifs
          rcases hfs (fs.getD i []) hmem with hlen | hmem' | hword
          · left
            rw [hcgd]
            simp only [List.length_append]
            omega
          · right; left
            rw [hcgd]
            exact hmem'
          · right; right
            rw [hcgd]
            exact hword
        · -- the last fragment: core entry is `lastF`, and hashtags are added
          have hieq : i = (withTagsOf T L).length - 1 := by omega
          subst hieq
          have hidx : (withTagsOf T L).length - 1 = (coreOf T L).length - 1 := by
            omega
          rw [hidx, withTagsOf_getD_last T L (by rw [hcore]; simp), hclast]
          have hns2 : (numSuffix (0 + ((coreOf T L).length - 1) + 1)
              (withTagsOf T L).length).length ≤ 10 :=
            numSuffix_length_le_ten _ _ (by omega) (by omega)
          rcases hlastF with hlen | hmem' | hword
          · left
            simp only [List.length_append]
            omega
          · right; left
            exact hmem'
          · right; right
            exact hword
      · -- a single un-numbered fragment
        rw [if_neg h1] at hi ⊢
        have hi0 : i = 0 := by omega
        subst hi0
        have hW1 : (withTagsOf T L).length = 1 := by omega
        have hidx0 : (0 : Nat) = (coreOf T L).length - 1 := by omega
        rw [hidx0, withTagsOf_getD_last T L (by rw [hcore]; simp), hclast]
        rcases hlastF with hlen | hmem' | hword
        · left
          simp only [List.length_append]
          omega
        · right; left
          exact hmem'
        · right; right
          exact hword

theorem claim_C1_amended_witness :
    ((splitStoryIntoTweets exC1w 40).getD 0 []).length ≤ 40 ∨
    (coreOf exC1w 40).getD 0 [] ∈ sentencesOf exC1w ∨
    ∃ s ∈ sentencesOf exC1w, (coreOf exC1w 40).getD 0 [] ∈ pyWords s :=
  claim_C1_amended exC1w 40 (by decide) 0 (by decide)

/-! ## The claims about the post-record store and the scheduler -/

theorem recordPost_preserves_AtMostOne (posts : List PostRecord) (post : GenPost)
    (now : Nat) (hinv : AtMostOnePerSlot posts)
    (hnone : alreadyPostedInTimeSlot posts now = false)
    (hts : isMorning post.timestamp = isMorning now) :
    AtMostOnePerSlot (recordPost posts post now) := by
  unfold recordPost pruneOld
  have happ : AtMostOnePerSlot (posts ++ [mkRecord post now]) := by
    unfold AtMostOnePerSlot
    rw [List.pairwise_append]
    refine ⟨hinv, by simp, ?_⟩
    intro a ha b hb
    have hb' : b = mkRecord post now := by simpa using hb
    subst hb'
    intro hcon
    have h1 : a.date = dateOf now := hcon.1
    have h2 : isMorning a.timestamp = isMorning now := by
      rw [hcon.2]
      exact hts
    have : alreadyPostedInTimeSlot posts now = true := by
      unfold alreadyPostedInTimeSlot
      rw [List.any_eq_true]
      exact ⟨a, ha, by simp [h1, h2]⟩
    rw [hnone] at this
    exact Bool.false_ne_true this
  exact happ.sublist (List.filter_sublist _)

theorem runDaily_preserves_AtMostOne (posts : List PostRecord) (now : Nat)
    (story image : List Char) (hinv : AtMostOnePerSlot posts) :
    AtMostOnePerSlot (runDailyGeneration posts now story image).1 := by
  unfold runDailyGeneration
  by_cases h : alreadyPostedInTimeSlot posts now = true
  · rw [if_pos h]
    exact hinv
  · have hf : alreadyPostedInTimeSlot posts now = false := by
      cases hb : alreadyPostedInTimeSlot posts now
      · rfl
      · exact absurd hb h
    rw [if_neg h]
    exact recordPost_preserves_AtMostOne posts ⟨story, image, now⟩ now hinv hf rfl

theorem applyTriggers_preserves_AtMostOne
    (triggers : List (Nat × List Char × List Char)) :
    ∀ posts : List PostRecord, AtMostOnePerSlot posts →
      AtMostOnePerSlot (applyTriggers posts triggers) := by
  induction triggers with
  | nil =>
    intro posts h
    exact h
  | cons tr rest ih =>
    intro posts h
    have := ih ((runDailyGeneration posts tr.1 tr.2.1 tr.2.2).1)
      (runDaily_preserves_AtMostOne posts tr.1 tr.2.1 tr.2.2 h)
    simpa [applyTriggers] using this

/-- C2: when a trigger fires and a record for the current (date, slot) pair
already exists, the run makes no generation call and leaves the store
unchanged; consequently scheduler-driven operation (any sequence of trigger
runs) preserves the at-most-one-record-per-(date, slot) invariant. -/
theorem claim_C2 (posts : List PostRecord) (now : Nat) (story image : List Char)
    (triggers : List (Nat × List Char × List Char)) :
    (alreadyPostedInTimeSlot posts now = true →
      runDailyGeneration posts now story image = (posts, false)) ∧
    (AtMostOnePerSlot posts → AtMostOnePerSlot (applyTriggers posts triggers)) := by
  constructor
  · intro h
    unfold runDailyGeneration
    rw [if_pos h]
  · exact applyTriggers_preserves_AtMostOne triggers posts

theorem claim_C2_witness :
    runDailyGeneration [exRecMorning] 500 (("s").data) (("i").data) =
      ([exRecMorning], false) ∧
    AtMostOnePerSlot (applyTriggers [exRecMorning]
      [(500, (("s").data), (("i").data)), (1000, (("s").data), (("i").data))]) :=
  ⟨(claim_C2 [exRecMorning] 500 (("s").data) (("i").data)
      [(500, (("s").data), (("i").data)), (1000, (("s").data), (("i").data))]).1
      (by decide),
   (claim_C2 [exRecMorning] 500 (("s").data) (("i").data)
      [(500, (("s").data), (("i").data)), (1000, (("s").data), (("i").data))]).2
      (by simp [AtMostOnePerSlot])⟩

/-- C4: immediately after `record()` for a post whose (date, slot) matches
`now`, `alreadyPostedInCurrentSlot(now)` is true; and for a time on the same
date in the other 12-hour slot with no record in that slot, it is false. -/
theorem claim_C4 (posts : List PostRecord) (post : GenPost) (now now2 : Nat)
    (hslot : isMorning post.timestamp = isMorning now)
    (hdate : dateOf now2 = dateOf now)
    (hslot2 : ¬isMorning now2 = isMorning now)
    (hnone : alreadyPostedInTimeSlot posts now2 = false) :
    alreadyPostedInTimeSlot (recordPost posts post now) now = true ∧
    alreadyPostedInTimeSlot (recordPost posts post now) now2 = false := by
  constructor
  · unfold alreadyPostedInTimeSlot
    rw [List.any_eq_true]
    refine ⟨mkRecord post now, ?_, ?_⟩
    · unfold recordPost pruneOld
      rw [List.mem_filter]
      refine ⟨by simp, ?_⟩
      simp [mkRecord]
    · simp [mkRecord, hslot]
  · cases hb : alreadyPostedInTimeSlot (recordPost posts post now) now2
    · rfl
    · exfalso
      unfold alreadyPostedInTimeSlot at hb
      rw [List.any_eq_true] at hb
      obtain ⟨q, hq, hpred⟩ := hb
      have hq' : q ∈ posts ++ [mkRecord post now] := List.mem_of_mem_filter hq
      rcases List.mem_append.mp hq' with h | h
      · have : alreadyPostedInTimeSlot posts now2 = true := by
          unfold alreadyPostedInTimeSlot
          rw [List.any_eq_true]
          exact ⟨q, h, hpred⟩
        rw [hnone] at this
        exact Bool.false_ne_true this
      · have hqe : q = mkRecord post now := by simpa using h
        subst hqe
        simp only [mkRecord, Bool.and_eq_true, beq_iff_eq] at hpred
        apply hslot2
        rw [← hpred.2]
        exact hslot

theorem claim_C4_witness :
    alreadyPostedInTimeSlot (recordPost [] exPost 490) 490 = true ∧
    alreadyPostedInTimeSlot (recordPost [] exPost 490) 980 = false :=
  claim_C4 [] exPost 490 980 (by decide) (by decide) (by decide) (by decide)

/-- C7: every `record()` call drops, before persisting, all stored records
whose `posted_at` is more than 30 days in the past (everything kept satisfies
the strict 30-day freshness test); hence a record 31 days old is absent after
the next `record()` call and is never returned by `history()` for any window
of at most 30 days. -/
theorem claim_C7 (posts : List PostRecord) (post : GenPost) (now : Nat)
    (days : Nat) (r : PostRecord)
    (hdays : days ≤ 30) (hold : r.postedAt + 44640 ≤ now) :
    (∀ q ∈ recordPost posts post now, now < q.postedAt + 43200) ∧
    r ∉ recordPost posts post now ∧
    r ∉ getPostHistory posts days now := by
  have hkeep : ∀ q ∈ recordPost posts post now, now < q.postedAt + 43200 := by
    intro q hq
    unfold recordPost pruneOld at hq
    have := (List.mem_filter.mp hq).2
    simpa using this
  refine ⟨hkeep, ?_, ?_⟩
  · intro hr
    have := hkeep r hr
    omega
  · intro hr
    unfold getPostHistory at hr
    have hperm := List.mergeSort_perm
      (posts.filter fun p => now < p.postedAt + days * 1440)
      (fun a b => decide (b.postedAt ≤ a.postedAt))
    have hr' : r ∈ posts.filter (fun p => now < p.postedAt + days * 1440) :=
      hperm.mem_iff.mp hr
    have := (List.mem_filter.mp hr').2
    simp only [decide_eq_true_eq] at this
    have hwin : days * 1440 ≤ 43200 := by omega
    omega

theorem claim_C7_witness :
    exRecOld ∉ recordPost [exRecOld] exPost 44650 ∧
    exRecOld ∉ getPostHistory [exRecOld] 7 44650 :=
  ⟨(claim_C7 [exRecOld] exPost 44650 7 exRecOld (by decide) (by decide)).2.1,
   (claim_C7 [exRecOld] exPost 44650 7 exRecOld (by decide) (by decide)).2.2⟩

/-- C8: when the backing store is missing or fails to read/parse, the slot
check answers `false` and the history query answers `[]`; neither operation
propagates the failure (both are total and fail open). -/
theorem claim_C8 (f : StoreRead) (now : Nat) (days : Nat)
    (h : readStore f = none) :
    alreadyPostedStore f now = false ∧ getPostHistoryStore f days now = [] := by
  unfold alreadyPostedStore getPostHistoryStore
  rw [h]
  exact ⟨rfl, rfl⟩

theorem claim_C8_witness :
    alreadyPostedStore StoreRead.corrupt 500 = false ∧
    getPostHistoryStore StoreRead.corrupt 7 500 = [] :=
  claim_C8 StoreRead.corrupt 500 7 rfl

/-- C10: the record written by `record()` stores the story truncated to at
most 100 characters, and this bound is an invariant of every stored record
across `record()` calls. -/
theorem claim_C10 (posts : List PostRecord) (post : GenPost) (now : Nat) :
    (mkRecord post now).story.length ≤ 100 ∧
    ((∀ q ∈ posts, q.story.length ≤ 100) →
      ∀ q ∈ recordPost posts post now, q.story.length ≤ 100) := by
  have hnew : (mkRecord post now).story.length ≤ 100 := by
    simp [mkRecord]
  refine ⟨hnew, ?_⟩
  intro hall q hq
  unfold recordPost pruneOld at hq
  have hq' : q ∈ posts ++ [mkRecord post now] := List.mem_of_mem_filter hq
  rcases List.mem_append.mp hq' with h | h
  · exact hall q h
  · have hqe : q = mkRecord post now := by simpa using h
    rw [hqe]
    exact hnew

theorem claim_C10_witness :
    (mkRecord exPostLong 600).story.length ≤ 100 :=
  (claim_C10 [] exPostLong 600).2 (by simp) (mkRecord exPostLong 600) (by decide)

end TweetGen
